import Mathlib

/-!
A shallow embedding, in Lean, of the probing module `Probe.py` of the
fenicstools repository, together with proofs about its distributed
aggregation step (`Probes.array` / `StatisticsProbes.array`), its iterator
protocol, the statistics slot preconditions, the dof-to-component map
builder `extract_dof_component_map`, and the per-rank keep/remap step of
`interpolate_nonmatching_mesh_python`.

Machine integers are modelled as `Nat`/`Int` (with an explicit `% 2 ^ 32`
where the source relies on numpy unsigned 32-bit wraparound), numpy arrays
as `List`s, the MPI communication as explicit event lists and as a fold
over the deterministic order in which the root drains its peers, and
Python exceptions as `Except Unit`.
-/

namespace FenicsToolsProbe

/-- Process-local state of a `Probes` / `StatisticsProbes` collection, as the
Python layer sees it: `ids` models `get_probe_ids()` (the ordered list of this
process's global probe ids), `vals` the per-probe result rows that
`get_probes_component_and_snapshot` / `get_probe_sub` deliver (one entry per
local probe, aligned with `ids`; the row type `α` is a list of components for
a single snapshot, or a component-by-evaluation matrix for the
all-snapshots path), and `cursor` the attribute `self.i` set by `__iter__`
and advanced by `next` (Probe.py lines 48-61 and 132-145). -/
structure ProcState (α : Type) where
  ids : List Nat
  vals : List α
  cursor : Nat
  deriving DecidableEq, Repr

instance {α : Type} : Inhabited (ProcState α) := ⟨⟨[], [], 0⟩⟩

/-- The numpy fancy-indexed assignment `z[ids, :] = rows[:, :]` (Probe.py
lines 79, 98, 160, 171): row `ids[i]` of `z` is overwritten with `rows[i]`,
in order of increasing `i`. -/
def scatterList {α : Type} (z : List α) (ids : List Nat) (rows : List α) : List α :=
  (ids.zip rows).foldl (fun acc pr => acc.set pr.1 pr.2) z

theorem scatterList_nil_ids {α : Type} (z : List α) (rows : List α) :
    scatterList z [] rows = z := rfl

theorem scatterList_nil_rows {α : Type} (z : List α) (ids : List Nat) :
    scatterList z ids [] = z := by
  cases ids <;> rfl

theorem scatterList_cons {α : Type} (z : List α) (a : Nat) (ids : List Nat)
    (r : α) (rows : List α) :
    scatterList z (a :: ids) (r :: rows) = scatterList (z.set a r) ids rows := rfl

theorem scatterList_length {α : Type} (z : List α) (ids : List Nat) (rows : List α) :
    (scatterList z ids rows).length = z.length := by
  induction ids generalizing z rows with
  | nil => rfl
  | cons a t ih =>
    cases rows with
    | nil => rw [scatterList_nil_rows]
    | cons r rs => rw [scatterList_cons, ih, List.length_set]

theorem scatterList_getElem_of_not_mem {α : Type} (z : List α) (ids : List Nat)
    (rows : List α) (p : Nat) (hp : p ∉ ids) :
    (scatterList z ids rows)[p]? = z[p]? := by
  induction ids generalizing z rows with
  | nil => rfl
  | cons a t ih =>
    cases rows with
    | nil => rw [scatterList_nil_rows]
    | cons r rs =>
      have hne : a ≠ p := by
        rintro rfl
        exact hp (List.mem_cons_self a t)
      rw [scatterList_cons, ih _ _ (fun h => hp (List.mem_cons_of_mem a h)),
        List.getElem?_set_ne hne]

theorem scatterList_getElem_of_nodup {α : Type} (z : List α) (ids : List Nat)
    (rows : List α) (i p : Nat) (hnd : ids.Nodup) (hi : ids[i]? = some p)
    (hr : i < rows.length) (hz : p < z.length) :
    (scatterList z ids rows)[p]? = rows[i]? := by
  induction ids generalizing z rows i with
  | nil => simp at hi
  | cons a t ih =>
    cases rows with
    | nil => simp at hr
    | cons r rs =>
      rw [scatterList_cons]
      cases i with
      | zero =>
        simp only [List.getElem?_cons_zero, Option.some_inj] at hi
        subst hi
        rw [scatterList_getElem_of_not_mem _ _ _ _ (List.Nodup.not_mem hnd),
          List.getElem?_set_self hz]
        simp
      | succ i2 =>
        simp only [List.getElem?_cons_succ] at hi
        have := ih (z.set a r) rs i2 (List.Nodup.of_cons hnd) hi
          (Nat.lt_of_succ_lt_succ hr) (by rwa [List.length_set])
        simpa using this

/-- Folding the fancy-indexed assignment over a list of
`(id list, partial rows)` contributions, one per contributing process, in the
order the root drains them. -/
def scatterFold {α : Type} (ps : List (List Nat × List α)) (z : List α) : List α :=
  ps.foldl (fun acc pr => scatterList acc pr.1 pr.2) z

theorem scatterFold_length {α : Type} (ps : List (List Nat × List α)) (z : List α) :
    (scatterFold ps z).length = z.length := by
  induction ps generalizing z with
  | nil => rfl
  | cons q rest ih =>
    show (scatterFold rest (scatterList z q.1 q.2)).length = z.length
    rw [ih, scatterList_length]

theorem scatterFold_getElem_of_not_mem {α : Type} (ps : List (List Nat × List α))
    (z : List α) (p : Nat) (hp : p ∉ (ps.map Prod.fst).flatten) :
    (scatterFold ps z)[p]? = z[p]? := by
  induction ps generalizing z with
  | nil => rfl
  | cons q rest ih =>
    simp only [List.map_cons, List.flatten_cons, List.mem_append, not_or] at hp
    show (scatterFold rest (scatterList z q.1 q.2))[p]? = z[p]?
    rw [ih _ hp.2, scatterList_getElem_of_not_mem _ _ _ _ hp.1]

theorem scatterFold_getElem {α : Type} (ps : List (List Nat × List α)) (z : List α)
    (t i p : Nat) (pr : List Nat × List α)
    (hnd : ((ps.map Prod.fst).flatten).Nodup)
    (ht : ps[t]? = some pr) (hi : pr.1[i]? = some p)
    (hr : i < pr.2.length) (hz : p < z.length) :
    (scatterFold ps z)[p]? = pr.2[i]? := by
  induction ps generalizing z t with
  | nil => simp at ht
  | cons q rest ih =>
    simp only [List.map_cons, List.flatten_cons, List.nodup_append] at hnd
    cases t with
    | zero =>
      simp only [List.getElem?_cons_zero, Option.some_inj] at ht
      subst ht
      show (scatterFold rest (scatterList z q.1 q.2))[p]? = q.2[i]?
      have hpmem : p ∈ q.1 := List.getElem?_mem hi
      rw [scatterFold_getElem_of_not_mem _ _ _ (fun hmem => hnd.2.2 hpmem hmem)]
      exact scatterList_getElem_of_nodup z q.1 q.2 i p hnd.1 hi hr hz
    | succ t2 =>
      simp only [List.getElem?_cons_succ] at ht
      show (scatterFold rest (scatterList z q.1 q.2))[p]? = pr.2[i]?
      exact ih (scatterList z q.1 q.2) t2 hnd.2.1 ht
        (by rwa [scatterList_length])

/-- The order in which the global result array `z` absorbs contributions in
`Probes.array` / `StatisticsProbes.array`: the root process first writes its
own rows (`z[ids, k] = ...`, lines 77-79 / 158-160), then the receive loop
`for j, k in enumerate(recvfrom)` drains every other rank `j` in increasing
order, skipping `j == comm.Get_rank()` (lines 93-98 / 166-171). -/
def aggOrder (P root : Nat) : List Nat :=
  root :: (List.range P).filter (fun j => j != root)

theorem aggOrder_perm (P root : Nat) (hroot : root < P) :
    (aggOrder P root).Perm (List.range P) := by
  have hmem : root ∈ List.range P := List.mem_range.mpr hroot
  have h1 := List.perm_cons_erase hmem
  rw [(List.nodup_range P).erase_eq_filter root] at h1
  exact (List.Perm.symm h1)

theorem rangeMap_getD {β γ : Type} (l : List β) (f : β → γ) (d : β) :
    (List.range l.length).map (fun j => f (l.getD j d)) = l.map f := by
  apply List.ext_getElem?
  intro n
  by_cases hn : n < l.length
  · rw [List.getElem?_map, List.getElem?_map, List.getElem?_range hn,
      List.getElem?_eq_getElem hn]
    simp [List.getD_eq_getElem?_getD, List.getElem?_eq_getElem hn]
  · rw [List.getElem?_map, List.getElem?_map, List.getElem?_eq_none (by simpa using hn),
      List.getElem?_eq_none (by simpa using hn)]
    rfl

/-- The merged result array built on the root by `Probes.array` (lines 63-110,
snapshot path) and `StatisticsProbes.array` (lines 147-180): starting from
`z = zeros((total number of probes, ...))`, the root scatters its own rows
at its own probe ids, then, draining ranks in increasing order, scatters each
received partial array `z0` at the received id list (`z[ids, :] = z0[:, :]`).
A row of type `α` is one probe's data. -/
def probesArrayAgg {α : Type} (world : List (ProcState α)) (root total : Nat)
    (zrow : α) : List α :=
  scatterFold
    ((aggOrder world.length root).map
      (fun j => ((world.getD j default).ids, (world.getD j default).vals)))
    (List.replicate total zrow)

/-- The sequence of point-to-point receives the root performs in the
collection loop of `Probes.array` / `StatisticsProbes.array`
(lines 93-97 / 166-170): for each rank `j` in `range(P)` in increasing order,
skipping its own rank, first `comm.recv(source=j, tag=101)` (the id list),
then `comm.recv(source=j, tag=102)` (the payload array). An event is a
`(source, tag)` pair. -/
def rootRecvEvents (P root : Nat) : List (Nat × Nat) :=
  (List.range P).flatMap (fun j => if j = root then [] else [(j, 101), (j, 102)])

/-- Local state of a collection after `Probes.array` runs its all-snapshots
path (`N is None`): when the collection is nonempty, the
`for i, (index, probe) in enumerate(self)` loop (lines 83-89) drives the
shared iterator, leaving the cursor attribute `self.i` equal to the local
probe count; `ids` and `vals` are untouched. An empty collection skips the
loop (`if len(self) > 0`, line 74). -/
def probesLocalAfterAll {α : Type} (ps : ProcState α) : ProcState α :=
  if 0 < ps.ids.length then { ps with cursor := ps.ids.length } else ps

/-- One full collective call of the all-snapshots path of `Probes.array`:
the root result array together with the post-call local states of every
process. -/
def probesArrayAllCall {α : Type} (world : List (ProcState α)) (root total : Nat)
    (zrow : α) : List α × List (ProcState α) :=
  (probesArrayAgg world root total zrow, world.map probesLocalAfterAll)

/-- One full collective call of `StatisticsProbes.array` (or of the
snapshot-specific path of `Probes.array`): no Python-level iteration happens,
so every local state is returned unchanged. -/
def statsArrayAllCall {α : Type} (world : List (ProcState α)) (root total : Nat)
    (zrow : α) : List α × List (ProcState α) :=
  (probesArrayAgg world root total zrow, world)

/-- What one single process of rank `myRank` gets back from the all-snapshots
path of `Probes.array` with root `root`: the merged array if it is the root
(`if is_root: ... return squeeze(z)`, lines 104-110; squeezing does not
change which rows exist), `None` otherwise, paired with its own post-call
local state. -/
def probesArrayCallLocal {α : Type} (myRank root total : Nat)
    (world : List (ProcState α)) (zrow : α) : Option (List α) × ProcState α :=
  ((if myRank = root then some (probesArrayAgg world root total zrow) else none),
    probesLocalAfterAll (world.getD myRank default))

/-- What one single process of rank `myRank` gets back from
`StatisticsProbes.array` (lines 177-180): the merged array on the root,
`None` otherwise; the local collection state is not touched (the statistics
path never iterates the collection). -/
def statsArrayCallLocal {α : Type} (myRank root total : Nat)
    (world : List (ProcState α)) (zrow : α) : Option (List α) × ProcState α :=
  ((if myRank = root then some (probesArrayAgg world root total zrow) else none),
    world.getD myRank default)

/-- The precondition check of `StatisticsProbe.__getitem__` (line 121):
`assert(i < 2)`. Python integers are unbounded and signed, so the slot index
is an `Int`. -/
def statisticsProbeGetitemCheck (i : Int) : Bool :=
  decide (i < 2)

/-- `StatisticsProbe.__getitem__` (lines 120-122): run the assert, then, and
only then, access the element through `get_probe_at_snapshot(i)` (modelled by
the abstract accessor `getSnap`). A failed assert raises before any access. -/
def statisticsProbeGetitem {β : Type} (getSnap : Int → β) (i : Int) : Except Unit β :=
  if statisticsProbeGetitemCheck i then .ok (getSnap i) else .error ()

/-- The precondition check of `StatisticsProbes.array` (line 149):
`assert(N == 0 or N == 1)`. -/
def statisticsProbesArrayCheck (N : Int) : Bool :=
  decide (N = 0) || decide (N = 1)

/-- One MPI call, as issued by `StatisticsProbes.array`. -/
inductive CommEvent where
  | gather (root : Nat)
  | send (dest tag : Nat)
  | recv (source tag : Nat)
  deriving DecidableEq, Repr

/-- The communication trace of one process of rank `myRank` in
`StatisticsProbes.array` (lines 147-175): the assert on `N` runs first
(line 149); if it fails, the call raises with no communication at all.
Otherwise the process joins the collective `comm.gather` (line 165), after
which the root performs its receives and every other process performs its
two tagged sends (lines 173-175). -/
def statsArrayComm (N : Int) (myRank root P : Nat) : Except Unit (List CommEvent) :=
  if statisticsProbesArrayCheck N then
    .ok (CommEvent.gather root ::
      (if myRank = root then
        (rootRecvEvents P root).map (fun e => CommEvent.recv e.1 e.2)
      else [CommEvent.send root 101, CommEvent.send root 102]))
  else .error ()

/-- A (possibly mixed/vector) function space, as
`extract_dof_component_map` (Probe.py lines 192-203) observes it:
`num_sub_spaces() == 0` means a leaf, whose collapsed dofmap yields the list
of global dof indices `ss[1].values()`; otherwise the space has sub-spaces,
visited in declaration order via `extract_sub_space`. -/
inductive SpaceTree where
  | leaf (dofs : List Nat)
  | mixed (subs : List SpaceTree)

/-- The dof-to-component dictionary being built: `none` models a key absent
from the Python dict. -/
def DofMap : Type := Nat → Option Nat

mutual

/-- `extract_dof_component_map(dof_component_map, VV, comp)`
(Probe.py lines 192-203). The counter `comp` is a one-element numpy array of
dtype `I` (unsigned 32-bit), so `comp[0] += 1` wraps modulo `2 ^ 32`. At a
leaf the counter is bumped and every collapsed dof is mapped to the new
counter value; at a mixed space the children are visited in declaration
order, sharing the same dictionary and counter. -/
def extractMap : SpaceTree → DofMap → Nat → DofMap × Nat
  | .leaf dofs, m, comp =>
    let c := (comp + 1) % 2 ^ 32
    (dofs.foldl (fun mm d => fun x => if x = d then some c else mm x) m, c)
  | .mixed subs, m, comp => extractMapList subs m comp

/-- The `for i in range(VV.num_sub_spaces())` recursion of
`extract_dof_component_map` over the sub-spaces in declaration order. -/
def extractMapList : List SpaceTree → DofMap → Nat → DofMap × Nat
  | [], m, comp => (m, comp)
  | s :: rest, m, comp =>
    extractMapList rest (extractMap s m comp).1 (extractMap s m comp).2

end

mutual

/-- The leaves of a space, in the declaration order in which
`extract_dof_component_map` reaches them. -/
def leavesOf : SpaceTree → List (List Nat)
  | .leaf dofs => [dofs]
  | .mixed subs => leavesOfList subs

def leavesOfList : List SpaceTree → List (List Nat)
  | [] => []
  | s :: rest => leavesOf s ++ leavesOfList rest

end

/-- The dof-component map built by `interpolate_nonmatching_mesh_python`
(lines 206-208): the dictionary starts empty and the shared counter starts
at `array([-1], 'I')[0] = 2 ^ 32 - 1` (unsigned wraparound of `-1`). -/
def dofComponentMapOf (V : SpaceTree) : DofMap :=
  (extractMap V (fun _ => none) (2 ^ 32 - 1)).1

/-- `squeeze(data)` on an array with a single value column
(lines 222-223): each row collapses to its first entry. -/
def squeezeCols (data : List (List Int)) : List Int :=
  data.map (fun row => row.headI)

/-- The mixed-space remap loop of `interpolate_nonmatching_mesh_python`
(lines 225-227): `for j in range(data.shape[0]): dd[j] = data[j,
dof_component_map[j + owner_range[0]]]`. -/
def writeRows (dd : List Int) (data : List (List Int)) (dcm : Nat → Nat)
    (ownerStart : Nat) : List Int :=
  (List.range data.length).foldl
    (fun acc j => acc.set j ((data.getD j []).getD (dcm (j + ownerStart)) 0)) dd

/-- The keep step at iteration `i` of the round-robin loop of
`interpolate_nonmatching_mesh_python` (lines 221-228): only the process whose
rank equals `i` touches its buffer (`if i == comm.Get_rank()`); a space
without sub-spaces stores `squeeze(data)` directly, a mixed space remaps each
row through the dof-component map into `dd`. -/
def interpolateKeepStep (myRank i numSub ownerStart : Nat)
    (data : List (List Int)) (dcm : Nat → Nat) (buf dd : List Int) : List Int :=
  if i = myRank then
    if numSub < 1 then squeezeCols data
    else writeRows dd data dcm ownerStart
  else buf

/-- The number of value columns of the result array of `Probes.array` /
`StatisticsProbes.array`: `comp = self.value_size() if component is None
else 1` (lines 67 / 152). -/
def valueColumns (valueSize : Nat) (component : Option Nat) : Nat :=
  match component with
  | none => valueSize
  | some _ => 1

/-- The value columns filled by the snapshot-specific path of `Probes.array`
(lines 75-81): `for k in range(comp)`, column `k` is fetched with
`get_probes_component_and_snapshot(k, N)` (modelled by `compSnap k`); on the
root it is scattered into a zero column at this process's probe ids, on any
other process it overwrites the whole column. The loop index `k`, not the
`component` argument, selects the fetched component. -/
def probesSnapCols (isRoot : Bool) (size : Nat) (ids : List Nat)
    (valueSize : Nat) (component : Option Nat) (compSnap : Nat → List Int) :
    List (List Int) :=
  (List.range (valueColumns valueSize component)).map (fun k =>
    if isRoot then scatterList (List.replicate size (0 : Int)) ids (compSnap k)
    else compSnap k)

/-- The identical fill loop of `StatisticsProbes.array` (lines 156-162);
the source duplicates the code, and so does this embedding. -/
def statsSnapCols (isRoot : Bool) (size : Nat) (ids : List Nat)
    (valueSize : Nat) (component : Option Nat) (compSnap : Nat → List Int) :
    List (List Int) :=
  (List.range (valueColumns valueSize component)).map (fun k =>
    if isRoot then scatterList (List.replicate size (0 : Int)) ids (compSnap k)
    else compSnap k)

/-- `Probes.next` / `StatisticsProbes.next` (lines 55-61 / 139-145): try to
fetch `self[self.i]`; a bare `except:` turns ANY exception raised by the
element access into `StopIteration` (`none`); on success the cursor advances
by one and the element is produced. `getitem` is the abstract element
accessor `self.__getitem__`. -/
def collectionNext {β : Type} (getitem : Nat → Except Unit β) (cursor : Nat) :
    Option (β × Nat) :=
  match getitem cursor with
  | .error _ => none
  | .ok p => some (p, cursor + 1)

/-- `Probes.__getitem__` / `StatisticsProbes.__getitem__`
(lines 52-53 / 136-137): `(self.get_probe_id(i), self.get_probe(i))`, which
raises (here: errors) when `i` is not a valid local index. -/
def probesGetitem {α : Type} (ps : ProcState α) (i : Nat) : Except Unit (Nat × α) :=
  match ps.ids[i]?, ps.vals[i]? with
  | some gid, some v => .ok (gid, v)
  | _, _ => .error ()

/-- `Probes.__iter__` / `StatisticsProbes.__iter__` (lines 48-50 / 132-134):
`self.i = 0; return self` — the collection itself, with its cursor attribute
reset to 0, is the iterator. -/
def probesIter {α : Type} (ps : ProcState α) : ProcState α :=
  { ps with cursor := 0 }

/-- `next` acting on the collection state itself (the collection is its own
iterator): on success the stored cursor advances, on exhaustion the state is
left as is. -/
def probesAdvance {α : Type} (ps : ProcState α) : ProcState α :=
  match collectionNext (probesGetitem ps) ps.cursor with
  | none => ps
  | some pr => { ps with cursor := pr.2 }

/-- `n` successive `next` steps of an iteration in progress. -/
def probesAdvanceN {α : Type} (ps : ProcState α) : Nat → ProcState α
  | 0 => ps
  | n + 1 => probesAdvanceN (probesAdvance ps) n

/-- The dictionary update performed at one leaf: `for val in ss[1].values():
dof_component_map[val] = comp[0]` (lines 197-198). -/
def assignLeaf (dofs : List Nat) (c : Nat) (m : DofMap) : DofMap :=
  dofs.foldl (fun mm d => fun x => if x = d then some c else mm x) m

theorem assignLeaf_apply (dofs : List Nat) (c : Nat) (m : DofMap) (x : Nat) :
    assignLeaf dofs c m x = if x ∈ dofs then some c else m x := by
  induction dofs generalizing m with
  | nil => simp [assignLeaf]
  | cons d t ih =>
    show assignLeaf t c (fun x => if x = d then some c else m x) x = _
    rw [ih]
    by_cases hx : x ∈ t
    · simp [hx]
    · by_cases hd : x = d <;> simp [hx, hd]

/-- The action of `extract_dof_component_map` presented as a single fold over
the leaves in declaration order: bump the shared unsigned counter, then
assign the new counter value to every dof of that leaf. -/
def leafFold (ls : List (List Nat)) (m : DofMap) (comp : Nat) : DofMap × Nat :=
  ls.foldl
    (fun p dofs => (assignLeaf dofs ((p.2 + 1) % 2 ^ 32) p.1, (p.2 + 1) % 2 ^ 32))
    (m, comp)

theorem leafFold_cons (dofs : List Nat) (ls : List (List Nat)) (m : DofMap)
    (comp : Nat) :
    leafFold (dofs :: ls) m comp =
      leafFold ls (assignLeaf dofs ((comp + 1) % 2 ^ 32) m) ((comp + 1) % 2 ^ 32) := rfl

theorem leafFold_append (a b : List (List Nat)) (m : DofMap) (comp : Nat) :
    leafFold (a ++ b) m comp = leafFold b (leafFold a m comp).1 (leafFold a m comp).2 := by
  unfold leafFold
  rw [List.foldl_append]

mutual

theorem extractMap_eq_leafFold (t : SpaceTree) (m : DofMap) (comp : Nat) :
    extractMap t m comp = leafFold (leavesOf t) m comp := by
  cases t with
  | leaf dofs => rfl
  | mixed subs =>
    rw [extractMap, leavesOf]
    exact extractMapList_eq_leafFold subs m comp

theorem extractMapList_eq_leafFold (l : List SpaceTree) (m : DofMap) (comp : Nat) :
    extractMapList l m comp = leafFold (leavesOfList l) m comp := by
  cases l with
  | nil => rfl
  | cons s rest =>
    rw [extractMapList, leavesOfList, leafFold_append, ← extractMap_eq_leafFold s m comp]
    exact extractMapList_eq_leafFold rest _ _

end

/-- The index of the LAST leaf (in declaration order) whose dof list contains
`x` — the leaf whose dictionary write survives, since later writes overwrite
earlier ones. -/
def lastIdxOf (x : Nat) : List (List Nat) → Option Nat
  | [] => none
  | dofs :: rest =>
    match lastIdxOf x rest with
    | some t => some (t + 1)
    | none => if x ∈ dofs then some 0 else none

theorem lastIdxOf_eq_none_iff (x : Nat) (ls : List (List Nat)) :
    lastIdxOf x ls = none ↔ ∀ l ∈ ls, x ∉ l := by
  induction ls with
  | nil => simp [lastIdxOf]
  | cons dofs rest ih =>
    constructor
    · intro h l hl
      cases h2 : lastIdxOf x rest with
      | some t =>
        rw [lastIdxOf, h2] at h
        cases h
      | none =>
        simp only [lastIdxOf, h2] at h
        rcases List.mem_cons.mp hl with rfl | hl2
        · intro hxl
          rw [if_pos hxl] at h
          cases h
        · exact ih.mp h2 l hl2
    · intro hall
      have h2 : lastIdxOf x rest = none :=
        ih.mpr (fun l hl => hall l (List.mem_cons_of_mem _ hl))
      simp only [lastIdxOf, h2]
      rw [if_neg (hall dofs (List.mem_cons_self dofs rest))]

theorem lastIdxOf_spec (x : Nat) (ls : List (List Nat)) (t : Nat)
    (h : lastIdxOf x ls = some t) :
    ∃ ht : t < ls.length, x ∈ ls[t] := by
  induction ls generalizing t with
  | nil => simp [lastIdxOf] at h
  | cons dofs rest ih =>
    rw [lastIdxOf] at h
    cases h2 : lastIdxOf x rest with
    | some t2 =>
      rw [h2] at h
      simp only [Option.some_inj] at h
      subst h
      obtain ⟨ht2, hx⟩ := ih t2 h2
      exact ⟨Nat.succ_lt_succ ht2, hx⟩
    | none =>
      rw [h2] at h
      by_cases hx : x ∈ dofs
      · rw [if_pos hx] at h
        simp only [Option.some_inj] at h
        subst h
        exact ⟨Nat.succ_pos _, hx⟩
      · rw [if_neg hx] at h
        exact absurd h (by simp)

theorem lastIdxOf_isSome_of_mem (x : Nat) (ls : List (List Nat)) (l : List Nat)
    (hl : l ∈ ls) (hx : x ∈ l) : ∃ t, lastIdxOf x ls = some t := by
  cases h : lastIdxOf x ls with
  | some t => exact ⟨t, rfl⟩
  | none => exact absurd hx ((lastIdxOf_eq_none_iff x ls).mp h l hl)

theorem lastIdxOf_eq_of_last (x : Nat) (ls : List (List Nat)) (t : Nat)
    (ht : t < ls.length) (hx : x ∈ ls[t])
    (hlast : ∀ t2, ∀ ht2 : t2 < ls.length, t < t2 → x ∉ ls[t2]) :
    lastIdxOf x ls = some t := by
  induction ls generalizing t with
  | nil => simp at ht
  | cons dofs rest ih =>
    cases t with
    | zero =>
      have hnone : lastIdxOf x rest = none := by
        rw [lastIdxOf_eq_none_iff]
        intro l hl hxl
        obtain ⟨t2, ht2, rfl⟩ := List.mem_iff_getElem.mp hl
        exact hlast (t2 + 1) (Nat.succ_lt_succ ht2) (Nat.succ_pos t2) (by simpa using hxl)
      rw [lastIdxOf, hnone]
      simp only [List.getElem_cons_zero] at hx
      rw [if_pos hx]
    | succ t2 =>
      have hrest : lastIdxOf x rest = some t2 := by
        apply ih t2 (Nat.lt_of_succ_lt_succ ht) (by simpa using hx)
        intro t3 ht3 hlt
        have := hlast (t3 + 1) (Nat.succ_lt_succ ht3) (Nat.succ_lt_succ hlt)
        simpa using this
      rw [lastIdxOf, hrest]

theorem leafFold_apply (ls : List (List Nat)) (m : DofMap) (comp x : Nat) :
    (leafFold ls m comp).1 x =
      match lastIdxOf x ls with
      | some t => some ((comp + 1 + t) % 2 ^ 32)
      | none => m x := by
  induction ls generalizing m comp with
  | nil => rfl
  | cons dofs rest ih =>
    rw [leafFold_cons, ih]
    cases h : lastIdxOf x rest with
    | some t =>
      simp only [lastIdxOf, h]
      show some (((comp + 1) % 2 ^ 32 + 1 + t) % 2 ^ 32) = some ((comp + 1 + (t + 1)) % 2 ^ 32)
      have h1 : (comp + 1) % 2 ^ 32 + 1 + t = (comp + 1) % 2 ^ 32 + (1 + t) := by omega
      have h2 : comp + 1 + (t + 1) = comp + 1 + (1 + t) := by omega
      rw [h1, h2, Nat.mod_add_mod]
    | none =>
      simp only [lastIdxOf, h, assignLeaf_apply]
      by_cases hx : x ∈ dofs
      · rw [if_pos hx, if_pos hx]
      · rw [if_neg hx, if_neg hx]

theorem probesLocalAfterAll_ids {α : Type} (ps : ProcState α) :
    (probesLocalAfterAll ps).ids = ps.ids := by
  unfold probesLocalAfterAll
  split <;> rfl

theorem probesLocalAfterAll_vals {α : Type} (ps : ProcState α) :
    (probesLocalAfterAll ps).vals = ps.vals := by
  unfold probesLocalAfterAll
  split <;> rfl

theorem getD_map_ids {α : Type} (world : List (ProcState α)) (j : Nat) :
    ((world.map probesLocalAfterAll).getD j default).ids = (world.getD j default).ids := by
  by_cases hj : j < world.length
  · rw [List.getD_eq_getElem?_getD, List.getD_eq_getElem?_getD, List.getElem?_map,
      List.getElem?_eq_getElem hj]
    exact probesLocalAfterAll_ids _
  · rw [List.getD_eq_getElem?_getD, List.getD_eq_getElem?_getD,
      List.getElem?_eq_none (by rw [List.length_map]; omega),
      List.getElem?_eq_none (by omega)]

theorem getD_map_vals {α : Type} (world : List (ProcState α)) (j : Nat) :
    ((world.map probesLocalAfterAll).getD j default).vals = (world.getD j default).vals := by
  by_cases hj : j < world.length
  · rw [List.getD_eq_getElem?_getD, List.getD_eq_getElem?_getD, List.getElem?_map,
      List.getElem?_eq_getElem hj]
    exact probesLocalAfterAll_vals _
  · rw [List.getD_eq_getElem?_getD, List.getD_eq_getElem?_getD,
      List.getElem?_eq_none (by rw [List.length_map]; omega),
      List.getElem?_eq_none (by omega)]

theorem probesAdvance_ids {α : Type} (ps : ProcState α) :
    (probesAdvance ps).ids = ps.ids := by
  unfold probesAdvance
  cases collectionNext (probesGetitem ps) ps.cursor <;> rfl

theorem probesAdvance_vals {α : Type} (ps : ProcState α) :
    (probesAdvance ps).vals = ps.vals := by
  unfold probesAdvance
  cases collectionNext (probesGetitem ps) ps.cursor <;> rfl

theorem probesAdvanceN_ids {α : Type} (ps : ProcState α) (n : Nat) :
    (probesAdvanceN ps n).ids = ps.ids := by
  induction n generalizing ps with
  | zero => rfl
  | succ n2 ih => rw [probesAdvanceN, ih, probesAdvance_ids]

theorem probesAdvanceN_vals {α : Type} (ps : ProcState α) (n : Nat) :
    (probesAdvanceN ps n).vals = ps.vals := by
  induction n generalizing ps with
  | zero => rfl
  | succ n2 ih => rw [probesAdvanceN, ih, probesAdvance_vals]

theorem foldl_set_eq_scatterList {α : Type} (l : List Nat) (v : Nat → α) (dd : List α) :
    l.foldl (fun acc j => acc.set j (v j)) dd = scatterList dd l (l.map v) := by
  induction l generalizing dd with
  | nil => rfl
  | cons a t ih =>
    rw [List.foldl_cons, List.map_cons, scatterList_cons]
    exact ih _

theorem writeRows_eq_scatterList (dd : List Int) (data : List (List Int))
    (dcm : Nat → Nat) (ownerStart : Nat) :
    writeRows dd data dcm ownerStart =
      scatterList dd (List.range data.length)
        ((List.range data.length).map
          (fun j => (data.getD j []).getD (dcm (j + ownerStart)) 0)) := by
  unfold writeRows
  exact foldl_set_eq_scatterList _ _ _

theorem flatMap_skip_eq_filter {γ : Type} (l : List Nat) (root : Nat)
    (f : Nat → List γ) :
    l.flatMap (fun j => if j = root then [] else f j) =
      (l.filter (fun j => j != root)).flatMap f := by
  induction l with
  | nil => rfl
  | cons a t ih =>
    by_cases h : a = root
    · subst h
      simp [List.flatMap_cons, List.filter_cons, ih]
    · simp [List.flatMap_cons, List.filter_cons, h, ih]

/-- C1: for every distribution of `total` probes across the processes of
`world` (the global ids across all processes forming a permutation of
`0, ..., total - 1`, each local partial array paired one-to-one with the
local id list), the array built on the root by `Probes.array` /
`StatisticsProbes.array` has exactly `total` rows; every row index is the
global id of exactly one local probe of exactly one process (no id missing,
none duplicated); and each row holds exactly the data row of that unique
owning probe, so every row is populated exactly once. -/
theorem probes_aggregation_id_coverage {α : Type} (world : List (ProcState α))
    (root total : Nat) (zrow : α)
    (hroot : root < world.length)
    (hvals : ∀ ps ∈ world, ps.vals.length = ps.ids.length)
    (hperm : ((world.map ProcState.ids).flatten).Perm (List.range total)) :
    (probesArrayAgg world root total zrow).length = total ∧
    (∀ n, n < total → ∃ j, ∃ hj : j < world.length, ∃ i,
      ∃ hi : i < world[j].ids.length, world[j].ids[i] = n) ∧
    (∀ j1 j2 i1 i2, ∀ hj1 : j1 < world.length, ∀ hj2 : j2 < world.length,
      ∀ hi1 : i1 < world[j1].ids.length, ∀ hi2 : i2 < world[j2].ids.length,
      world[j1].ids[i1] = world[j2].ids[i2] → j1 = j2 ∧ i1 = i2) ∧
    (∀ j, ∀ hj : j < world.length, ∀ i, ∀ hi : i < world[j].ids.length,
      (probesArrayAgg world root total zrow)[world[j].ids[i]]? =
        world[j].vals[i]?) := by
  have hnodup : ((world.map ProcState.ids).flatten).Nodup :=
    (hperm.nodup_iff).mpr (List.nodup_range total)
  refine ⟨?_, ?_, ?_, ?_⟩
  · show (scatterFold _ (List.replicate total zrow)).length = total
    rw [scatterFold_length, List.length_replicate]
  · intro n hn
    have hmem : n ∈ (world.map ProcState.ids).flatten :=
      hperm.mem_iff.mpr (List.mem_range.mpr hn)
    obtain ⟨L, hL, hnL⟩ := List.mem_flatten.mp hmem
    obtain ⟨ps, hps, rfl⟩ := List.mem_map.mp hL
    obtain ⟨j, hj, rfl⟩ := List.mem_iff_getElem.mp hps
    obtain ⟨i, hi, hin⟩ := List.mem_iff_getElem.mp hnL
    exact ⟨j, hj, i, hi, hin⟩
  · intro j1 j2 i1 i2 hj1 hj2 hi1 hi2 heq
    obtain ⟨hInner, hPW⟩ := List.nodup_flatten.mp hnodup
    rcases Nat.lt_trichotomy j1 j2 with hlt | heqj | hgt
    · exfalso
      have hdisj := List.pairwise_iff_get.mp hPW
        ⟨j1, by simpa using hj1⟩ ⟨j2, by simpa using hj2⟩ hlt
      simp only [List.get_eq_getElem, List.getElem_map] at hdisj
      exact hdisj (List.getElem_mem hi1) (heq ▸ List.getElem_mem hi2)
    · subst heqj
      have hnd1 : world[j1].ids.Nodup :=
        hInner _ (List.mem_map_of_mem _ (List.getElem_mem hj1))
      exact ⟨rfl, (List.Nodup.getElem_inj_iff hnd1).mp heq⟩
    · exfalso
      have hdisj := List.pairwise_iff_get.mp hPW
        ⟨j2, by simpa using hj2⟩ ⟨j1, by simpa using hj1⟩ hgt
      simp only [List.get_eq_getElem, List.getElem_map] at hdisj
      exact hdisj (List.getElem_mem hi2) (heq ▸ List.getElem_mem hi1)
  · intro j hj i hi
    have hperm2 : (aggOrder world.length root).Perm (List.range world.length) :=
      aggOrder_perm _ _ hroot
    have hjmem : j ∈ aggOrder world.length root :=
      hperm2.mem_iff.mpr (List.mem_range.mpr hj)
    obtain ⟨t, ht, hagg⟩ := List.mem_iff_getElem.mp hjmem
    have hgetD : world.getD j default = world[j] := by
      rw [List.getD_eq_getElem?_getD, List.getElem?_eq_getElem hj]
      rfl
    have hpt : ((aggOrder world.length root).map
        (fun j2 => ((world.getD j2 default).ids, (world.getD j2 default).vals)))[t]? =
        some (world[j].ids, world[j].vals) := by
      rw [List.getElem?_map, List.getElem?_eq_getElem ht, hagg,
        Option.map_some', hgetD]
    have hfsts : ((aggOrder world.length root).map
        (fun j2 => ((world.getD j2 default).ids, (world.getD j2 default).vals))).map
          Prod.fst =
        (aggOrder world.length root).map (fun j2 => ProcState.ids (world.getD j2 default)) := by
      rw [List.map_map]
      rfl
    have hpermFl : ((((aggOrder world.length root).map
        (fun j2 => ((world.getD j2 default).ids, (world.getD j2 default).vals))).map
          Prod.fst).flatten).Perm ((world.map ProcState.ids).flatten) := by
      rw [hfsts]
      have hm := hperm2.map (fun j2 => ProcState.ids (world.getD j2 default))
      rw [rangeMap_getD world ProcState.ids default] at hm
      exact hm.flatten
    have hnd2 : ((((aggOrder world.length root).map
        (fun j2 => ((world.getD j2 default).ids, (world.getD j2 default).vals))).map
          Prod.fst).flatten).Nodup :=
      (hpermFl.nodup_iff).mpr hnodup
    have hnlt : world[j].ids[i] < total := by
      have hmem2 : world[j].ids[i] ∈ (world.map ProcState.ids).flatten :=
        List.mem_flatten.mpr
          ⟨world[j].ids, List.mem_map_of_mem _ (List.getElem_mem hj),
            List.getElem_mem hi⟩
      exact List.mem_range.mp (hperm.mem_iff.mp hmem2)
    have hlenv : world[j].vals.length = world[j].ids.length :=
      hvals _ (List.getElem_mem hj)
    have key := scatterFold_getElem
      ((aggOrder world.length root).map
        (fun j2 => ((world.getD j2 default).ids, (world.getD j2 default).vals)))
      (List.replicate total zrow) t i (world[j].ids[i])
      (world[j].ids, world[j].vals) hnd2 hpt
      (by rw [List.getElem?_eq_getElem hi])
      (by rw [hlenv]; exact hi)
      (by rw [List.length_replicate]; exact hnlt)
    exact key

/-- C1 witness: 3 probes distributed across 2 processes (root owns global id
1; the other process owns ids 0 and 2); the aggregated row for global id 2 is
the second local row of process 1. -/
theorem probes_aggregation_id_coverage_witness :
    (probesArrayAgg
      [⟨[1], [[10]], 0⟩, (⟨[0, 2], [[20], [30]], 0⟩ : ProcState (List Int))]
      0 3 ([] : List Int))[2]? = some [30] :=
  (probes_aggregation_id_coverage
    [⟨[1], [[10]], 0⟩, (⟨[0, 2], [[20], [30]], 0⟩ : ProcState (List Int))]
    0 3 ([] : List Int) (by decide) (by decide) (by decide)).2.2.2
    1 (by decide) 1 (by decide)

/-- C2 counterexample: the slot index `-1` is outside `{0, 1}` (and negative),
yet the `assert(i < 2)` of `StatisticsProbe.__getitem__` passes on it, so the
call proceeds to the element access (`get_probe_at_snapshot(-1)`, here the
abstract accessor applied to `-1`) instead of reporting a precondition
violation at the call site. -/
theorem stats_slot_negative_passes_check :
    statisticsProbeGetitem (fun j => j * 10) (-1) = Except.ok (-10) ∧
    (-1 : Int) ≠ 0 ∧ (-1 : Int) ≠ 1 :=
  ⟨rfl, by decide, by decide⟩

/-- C2 amended: `StatisticsProbes.array` asserts `N == 0 or N == 1` and so
reports every slot index outside `{0, 1}` (negative ones included)
synchronously, before the gather and the point-to-point sends; but
`StatisticsProbe.__getitem__` only asserts `i < 2`: slot indices `>= 2` are
reported before any element access, while negative indices pass the check
and reach the element access. -/
theorem stats_slot_precondition_amended (N i : Int) (myRank root P : Nat)
    (hN : N ≠ 0 ∧ N ≠ 1) (hi : 2 ≤ i) :
    statsArrayComm N myRank root P = Except.error () ∧
    (∀ getSnap : Int → Int, statisticsProbeGetitem getSnap i = Except.error ()) ∧
    (∀ getSnap : Int → Int, ∀ iNeg : Int, iNeg < 0 →
      statisticsProbeGetitem getSnap iNeg = Except.ok (getSnap iNeg)) := by
  refine ⟨?_, ?_, ?_⟩
  · have hchk : statisticsProbesArrayCheck N = false := by
      simp [statisticsProbesArrayCheck, hN.1, hN.2]
    simp [statsArrayComm, hchk]
  · intro getSnap
    have hchk : statisticsProbeGetitemCheck i = false := by
      simp only [statisticsProbeGetitemCheck, decide_eq_false_iff_not]
      omega
    simp [statisticsProbeGetitem, hchk]
  · intro getSnap iNeg hneg
    have hchk : statisticsProbeGetitemCheck iNeg = true := by
      simp only [statisticsProbeGetitemCheck, decide_eq_true_eq]
      omega
    simp [statisticsProbeGetitem, hchk]

/-- C2 witness: slot index 5 is rejected by `StatisticsProbes.array` with no
communication event issued. -/
theorem stats_slot_precondition_amended_witness :
    statsArrayComm 5 1 0 3 = Except.error () :=
  (stats_slot_precondition_amended 5 2 1 0 3 ⟨by decide, by decide⟩ (by decide)).1

/-- C3: the map built by `extract_dof_component_map` for a space with
`k >= 1` leaf sub-spaces, provided every dof of the local ownership range
belongs to some leaf (totality of the collapsed leaf dofmaps) and
`k <= 2 ^ 32` (no unsigned counter overflow): every owned dof is mapped to
exactly one component index in `[0, k)`; a dof reached by leaf `t` and by no
later leaf gets component `t`, i.e. components are assigned to leaves in
declaration order; and for a non-mixed, non-vector space (a single leaf)
every dof of the leaf is mapped to component 0. -/
theorem extract_dof_component_map_total (V : SpaceTree) (ownedDofs : List Nat)
    (hk : (leavesOf V).length ≤ 2 ^ 32)
    (hcover : ∀ d ∈ ownedDofs, ∃ l ∈ leavesOf V, d ∈ l) :
    (∀ d ∈ ownedDofs, ∃ c, dofComponentMapOf V d = some c ∧
      c < (leavesOf V).length) ∧
    (∀ t, ∀ ht : t < (leavesOf V).length, ∀ d ∈ (leavesOf V)[t],
      (∀ t2, ∀ ht2 : t2 < (leavesOf V).length, t < t2 → d ∉ (leavesOf V)[t2]) →
      dofComponentMapOf V d = some t) ∧
    (∀ dofs : List Nat, ∀ d ∈ dofs,
      dofComponentMapOf (SpaceTree.leaf dofs) d = some 0) := by
  have hval : ∀ (W : SpaceTree) (x t : Nat), lastIdxOf x (leavesOf W) = some t →
      t < 2 ^ 32 → dofComponentMapOf W x = some t := by
    intro W x t hlast htlt
    unfold dofComponentMapOf
    rw [extractMap_eq_leafFold, leafFold_apply, hlast]
    show some ((2 ^ 32 - 1 + 1 + t) % 2 ^ 32) = some t
    have h2 : (2 ^ 32 - 1 + 1 + t) % 2 ^ 32 = t := by
      have h1 : 2 ^ 32 - 1 + 1 + t = 2 ^ 32 + t := by omega
      rw [h1, Nat.add_mod_left, Nat.mod_eq_of_lt htlt]
    rw [h2]
  refine ⟨?_, ?_, ?_⟩
  · intro d hd
    obtain ⟨l, hl, hdl⟩ := hcover d hd
    obtain ⟨t, hlast⟩ := lastIdxOf_isSome_of_mem d (leavesOf V) l hl hdl
    obtain ⟨ht, _⟩ := lastIdxOf_spec d (leavesOf V) t hlast
    exact ⟨t, hval V d t hlast (Nat.lt_of_lt_of_le ht hk), ht⟩
  · intro t ht d hd hlater
    have hlast : lastIdxOf d (leavesOf V) = some t :=
      lastIdxOf_eq_of_last d (leavesOf V) t ht hd hlater
    exact hval V d t hlast (Nat.lt_of_lt_of_le ht hk)
  · intro dofs d hd
    have hlast : lastIdxOf d (leavesOf (SpaceTree.leaf dofs)) = some 0 := by
      show lastIdxOf d [dofs] = some 0
      rw [lastIdxOf, lastIdxOf, if_pos hd]
    exact hval (SpaceTree.leaf dofs) d 0 hlast (by positivity)

/-- C3 witness: for the mixed space with leaves `[0, 1]` and `[2, 3]` and
ownership range `{0, 1, 2, 3}`, dof 3 (owned by the second leaf only) is
mapped to component 1. -/
theorem extract_dof_component_map_total_witness :
    dofComponentMapOf
      (SpaceTree.mixed [SpaceTree.leaf [0, 1], SpaceTree.leaf [2, 3]]) 3 = some 1 := by
  have h := (extract_dof_component_map_total
    (SpaceTree.mixed [SpaceTree.leaf [0, 1], SpaceTree.leaf [2, 3]]) [0, 1, 2, 3]
    (by decide) (by decide)).2.1 1 (by decide) 3 (by decide)
  exact h (by decide)

/-- C4: at iteration `i` of the round-robin loop of
`interpolate_nonmatching_mesh_python`, only the process whose rank equals `i`
keeps the aggregated data (on any other rank the buffer is untouched); when
the destination space has no sub-spaces the aggregated values are written
directly, one (squeezed) row per local dof in dof order; when it is mixed,
local dof `j` receives exactly the entry of returned row `j` at the column
given by the dof-component map at global dof `j + ownership-range start` —
every local dof is assigned exactly one value. -/
theorem interpolate_step_keeps_and_remaps (myRank i numSub ownerStart : Nat)
    (data : List (List Int)) (dcm : Nat → Nat) (buf dd : List Int)
    (hlen : data.length = dd.length) :
    (i ≠ myRank →
      interpolateKeepStep myRank i numSub ownerStart data dcm buf dd = buf) ∧
    (i = myRank → numSub < 1 →
      interpolateKeepStep myRank i numSub ownerStart data dcm buf dd =
        data.map (fun row => row.headI)) ∧
    (i = myRank → 1 ≤ numSub →
      (interpolateKeepStep myRank i numSub ownerStart data dcm buf dd).length =
        dd.length ∧
      ∀ j, j < data.length →
        (interpolateKeepStep myRank i numSub ownerStart data dcm buf dd)[j]? =
          some ((data.getD j []).getD (dcm (j + ownerStart)) 0)) := by
  refine ⟨?_, ?_, ?_⟩
  · intro hne
    simp [interpolateKeepStep, hne]
  · intro heq hsub
    subst heq
    simp [interpolateKeepStep, hsub, squeezeCols]
  · intro heq hsub
    subst heq
    have hnotlt : ¬ numSub < 1 := by omega
    have hstep : interpolateKeepStep i i numSub ownerStart data dcm buf dd =
        writeRows dd data dcm ownerStart := by
      simp [interpolateKeepStep, hnotlt]
    rw [hstep, writeRows_eq_scatterList]
    constructor
    · rw [scatterList_length]
    · intro j hjd
      rw [scatterList_getElem_of_nodup dd (List.range data.length) _ j j
        (List.nodup_range data.length) (List.getElem?_range hjd)
        (by rw [List.length_map, List.length_range]; exact hjd)
        (by rw [← hlen]; exact hjd)]
      rw [List.getElem?_map, List.getElem?_range hjd, Option.map_some']

/-- C4 witness: a mixed destination space with 2 local dofs, ownership range
starting at 1 and dof-component map `d % 2`: local dof 0 receives row 0 at
column `dcm 1 = 1`. -/
theorem interpolate_step_keeps_and_remaps_witness :
    (interpolateKeepStep 0 0 2 1 [[10, 11], [20, 21]] (fun d => d % 2)
      [] [0, 0])[0]? = some 11 :=
  ((interpolate_step_keeps_and_remaps 0 0 2 1 [[10, 11], [20, 21]]
    (fun d => d % 2) [] [0, 0] (by decide)).2.2 rfl (by decide)).2 0 (by decide)

/-- C5: calling the aggregation step twice in a row with the same arguments
and no intervening evaluation yields identical result arrays on the root both
times — for the all-snapshots `Probes.array` path, whose iteration moves the
collection cursors between the calls, and for `StatisticsProbes.array`,
which leaves the state untouched. -/
theorem aggregation_idempotent {α : Type} (world : List (ProcState α))
    (root total : Nat) (zrow : α) :
    (probesArrayAllCall
        ((probesArrayAllCall world root total zrow).2) root total zrow).1 =
      (probesArrayAllCall world root total zrow).1 ∧
    (statsArrayAllCall
        ((statsArrayAllCall world root total zrow).2) root total zrow).1 =
      (statsArrayAllCall world root total zrow).1 := by
  constructor
  · show probesArrayAgg (world.map probesLocalAfterAll) root total zrow =
      probesArrayAgg world root total zrow
    unfold probesArrayAgg
    rw [List.length_map]
    congr 1
    apply List.map_congr_left
    intro j hjmem
    rw [getD_map_ids, getD_map_vals]
  · rfl

/-- C7 counterexample: on non-root rank 1, a call to the all-snapshots path of
`Probes.array` DOES modify the process-local collection state: the iteration
of the nonempty local collection leaves the cursor attribute `self.i` at the
local probe count (2), where it was 7 before the call. -/
theorem aggregation_nonroot_mutates_state :
    (probesArrayCallLocal 1 0 3
        [⟨[1], [[10]], 0⟩, (⟨[0, 2], [[20], [30]], 7⟩ : ProcState (List Int))]
        ([] : List Int)).2 ≠
      (⟨[0, 2], [[20], [30]], 7⟩ : ProcState (List Int)) := by
  decide

/-- C7 amended: on a non-root process the aggregation step returns nothing
(`None`), and the local probe data (`ids`, `vals`) is unmodified; the only
state change is that the all-snapshots `Probes.array` path may move the
iteration cursor (see the counterexample), while `StatisticsProbes.array`
leaves the local state entirely unmodified and also returns nothing. -/
theorem aggregation_nonroot_frame {α : Type} (myRank root total : Nat)
    (world : List (ProcState α)) (zrow : α) (h : myRank ≠ root) :
    (probesArrayCallLocal myRank root total world zrow).1 = none ∧
    ((probesArrayCallLocal myRank root total world zrow).2).ids =
      (world.getD myRank default).ids ∧
    ((probesArrayCallLocal myRank root total world zrow).2).vals =
      (world.getD myRank default).vals ∧
    (statsArrayCallLocal myRank root total world zrow).1 = none ∧
    (statsArrayCallLocal myRank root total world zrow).2 =
      world.getD myRank default := by
  refine ⟨?_, ?_, ?_, ?_, rfl⟩
  · simp [probesArrayCallLocal, h]
  · exact probesLocalAfterAll_ids _
  · exact probesLocalAfterAll_vals _
  · simp [statsArrayCallLocal, h]

/-- C7 witness: non-root rank 1 receives `None` from the call. -/
theorem aggregation_nonroot_frame_witness :
    (probesArrayCallLocal 1 0 3
        [⟨[1], [[10]], 0⟩, (⟨[0, 2], [[20], [30]], 7⟩ : ProcState (List Int))]
        ([] : List Int)).1 = none :=
  (aggregation_nonroot_frame 1 0 3
    [⟨[1], [[10]], 0⟩, (⟨[0, 2], [[20], [30]], 7⟩ : ProcState (List Int))]
    ([] : List Int) (by decide)).1

/-- C6: in the collection loop of the aggregation step the root receives
from every non-root process in strictly increasing rank order, two messages
per process distinguished by two distinct tags — tag 101 for the
GlobalProbeId list, tag 102 for the payload array — and every event indeed
targets a non-root rank below `P` with one of those two tags; finally, each
received row is scattered into the global result array using the received id
as the row index (`z[ids, :] = z0[:, :]`). -/
theorem root_receive_order_and_tags (P root : Nat) :
    rootRecvEvents P root =
      ((List.range P).filter (fun j => j != root)).flatMap
        (fun j => [(j, 101), (j, 102)]) ∧
    List.Sorted (· < ·) ((List.range P).filter (fun j => j != root)) ∧
    (∀ j, j < P → j ≠ root →
      (j, 101) ∈ rootRecvEvents P root ∧ (j, 102) ∈ rootRecvEvents P root) ∧
    (∀ e ∈ rootRecvEvents P root,
      e.1 < P ∧ e.1 ≠ root ∧ (e.2 = 101 ∨ e.2 = 102) ∧ (101 : Nat) ≠ 102) ∧
    (∀ (z rows : List (List Int)) (ids : List Nat) (i n : Nat), ids.Nodup →
      ids[i]? = some n → i < rows.length → n < z.length →
      (scatterList z ids rows)[n]? = rows[i]?) := by
  refine ⟨flatMap_skip_eq_filter (List.range P) root _, ?_, ?_, ?_, ?_⟩
  · exact List.Pairwise.filter _ (List.pairwise_lt_range P)
  · intro j hj hne
    constructor
    · exact List.mem_flatMap.mpr ⟨j, List.mem_range.mpr hj, by simp [hne]⟩
    · exact List.mem_flatMap.mpr ⟨j, List.mem_range.mpr hj, by simp [hne]⟩
  · intro e he
    obtain ⟨j, hjr, hej⟩ := List.mem_flatMap.mp he
    by_cases hjroot : j = root
    · rw [if_pos hjroot] at hej
      cases hej
    · rw [if_neg hjroot] at hej
      rcases List.mem_cons.mp hej with rfl | hej2
      · exact ⟨List.mem_range.mp hjr, hjroot, Or.inl rfl, by decide⟩
      · rcases List.mem_cons.mp hej2 with rfl | hej3
        · exact ⟨List.mem_range.mp hjr, hjroot, Or.inr rfl, by decide⟩
        · cases hej3
  · exact fun z rows ids i n hnd hi hr hz =>
      scatterList_getElem_of_nodup z ids rows i n hnd hi hr hz

/-- C6 witness: with 3 processes and root 0, the root's receive schedule is
rank 1 then rank 2, tags 101 then 102 for each. -/
theorem root_receive_order_and_tags_witness :
    rootRecvEvents 3 0 = [(1, 101), (1, 102), (2, 101), (2, 102)] :=
  (root_receive_order_and_tags 3 0).1.trans (by decide)

/-- C8: when a `component` argument is passed to the snapshot-specific path
of `Probes.array` or to `StatisticsProbes.array`, the result has exactly one
value column, and that column is fetched with
`get_probes_component_and_snapshot(0, N)` — component index 0 — no matter
which component index the caller passed: the argument only narrows the width
(`comp = 1`), it never selects the fetched component. -/
theorem array_component_argument_ignored (isRoot : Bool) (size : Nat)
    (ids : List Nat) (valueSize c : Nat) (compSnap : Nat → List Int) :
    (probesSnapCols isRoot size ids valueSize (some c) compSnap).length = 1 ∧
    probesSnapCols isRoot size ids valueSize (some c) compSnap =
      [if isRoot then scatterList (List.replicate size (0 : Int)) ids (compSnap 0)
       else compSnap 0] ∧
    probesSnapCols isRoot size ids valueSize (some c) compSnap =
      probesSnapCols isRoot size ids valueSize (some 0) compSnap ∧
    statsSnapCols isRoot size ids valueSize (some c) compSnap =
      probesSnapCols isRoot size ids valueSize (some c) compSnap := by
  have hr1 : List.range 1 = [0] := by decide
  refine ⟨?_, ?_, rfl, rfl⟩
  · simp [probesSnapCols, valueColumns]
  · simp [probesSnapCols, valueColumns, hr1]

/-- C9: `next` wraps the element access `self[self.i]` in a bare
`try/except`, so ANY failure of the element access — not only the cursor
running past the last local probe — is converted into ordinary sequence
exhaustion (`StopIteration`, modelled as `none`) instead of propagating to
the caller. -/
theorem next_converts_any_failure {β : Type} (getitem : Nat → Except Unit β)
    (cursor : Nat) (hfail : getitem cursor = Except.error ()) :
    collectionNext getitem cursor = none := by
  simp [collectionNext, hfail]

/-- C9 witness: an element access that fails (for whatever reason) at cursor
0 makes `next` signal exhaustion. -/
theorem next_converts_any_failure_witness :
    collectionNext (fun _ => (Except.error () : Except Unit Nat)) 0 = none :=
  next_converts_any_failure (fun _ => (Except.error () : Except Unit Nat)) 0 rfl

/-- C10: `__iter__` mutates the collection itself, setting its cursor
attribute `self.i` to 0 while leaving the probe data alone, and the (mutated)
collection is its own iterator; consequently all iterations over one
collection share the single stored cursor, and starting a new iteration
resets an iteration already in progress (after any number `n` of `next`
steps, re-entering `__iter__` restores exactly the freshly-started state). -/
theorem iter_resets_shared_cursor {α : Type} (ps : ProcState α) (n : Nat) :
    (probesIter ps).cursor = 0 ∧
    (probesIter ps).ids = ps.ids ∧
    (probesIter ps).vals = ps.vals ∧
    probesIter (probesAdvanceN (probesIter ps) n) = probesIter ps := by
  refine ⟨rfl, rfl, rfl, ?_⟩
  show ({ ids := _, vals := _, cursor := 0 } : ProcState α) = _
  rw [probesAdvanceN_ids, probesAdvanceN_vals]
  rfl

end FenicsToolsProbe
